import Mathlib

/-!
Shallow embedding of `autoconvolution2x.py` (package `2xphases`).

Numeric conventions: Python floats are modelled by exact rationals `ℚ`,
complex spectra by `ℂ`, sample counts and block indices by `ℕ`.
Fallible or potentially diverging loops are modelled with explicit fuel
returning `Option`.
-/

set_option maxHeartbeats 1000000

/-- Embedding of the inner loop `while (n%2)==0: n//=2` of
`optimize_fft_size`.  The Python loop diverges at `n = 0` (the guard
`0 % 2 == 0` never fails); the extra `0 < n` guard makes the Lean
function total, and the divergence at 0 is modelled separately by
`strip2_loop`. -/
def strip2 (n : ℕ) : ℕ :=
  if h : n % 2 = 0 ∧ 0 < n then strip2 (n / 2) else n
termination_by n
decreasing_by
  exact Nat.div_lt_self h.2 one_lt_two

/-- Embedding of the loop `while (n%3)==0: n//=3` of `optimize_fft_size`. -/
def strip3 (n : ℕ) : ℕ :=
  if h : n % 3 = 0 ∧ 0 < n then strip3 (n / 3) else n
termination_by n
decreasing_by
  exact Nat.div_lt_self h.2 (by norm_num)

/-- One outer iteration body of `optimize_fft_size`: set `n = orig_n`,
strip factors of 2, then factors of 3. -/
def reduce23 (n : ℕ) : ℕ := strip3 (strip2 n)

/-- The `while True` search loop of `optimize_fft_size`, with explicit
fuel: try `n`, `n+1`, ... until the stripped value is `< 2`. -/
def searchFrom : ℕ → ℕ → Option ℕ
  | 0, _ => none
  | fuel + 1, n => if reduce23 n < 2 then some n else searchFrom fuel (n + 1)

/-- `optimize_fft_size` from the source: the first candidate `m ≥ n`
whose repeated division by 2 then 3 leaves a value `< 2`.  Fuel `n + 1`
is sufficient for every `n ≥ 1` (a power of two lies in `[n, 2n]`). -/
def optimize_fft_size (n : ℕ) : ℕ := (searchFrom (n + 1) n).getD 0

/-- State of the inner `while (n%2)==0: n//=2` loop after `k` iterations
starting from `n` (used to express non-termination of the Python loop at
`n = 0`). -/
def strip2_loop : ℕ → ℕ → ℕ
  | 0, n => n
  | k + 1, n => strip2_loop k (n / 2)

/-- Embedding of `pos[i+j][val] += 1` on the inner dict (Python dicts keep
insertion order; an absent key is appended with count 0 first). -/
def bumpPair : List ((ℕ × ℕ) × ℕ) → (ℕ × ℕ) → List ((ℕ × ℕ) × ℕ)
  | [], p => [(p, 1)]
  | (q, c) :: rest, p => if q = p then (q, c + 1) :: rest else (q, c) :: bumpPair rest p

/-- Embedding of the outer `defaultdict` update of `get_block_mixes`: the
group keyed `k` is updated (an absent key is appended in insertion order). -/
def bumpKey : List (ℕ × List ((ℕ × ℕ) × ℕ)) → ℕ → (ℕ × ℕ) → List (ℕ × List ((ℕ × ℕ) × ℕ))
  | [], k, p => [(k, bumpPair [] p)]
  | (k0, g) :: rest, k, p =>
    if k0 = k then (k0, bumpPair g p) :: rest else (k0, g) :: bumpKey rest k p

/-- The iteration order of `get_block_mixes`: `for j in range(n): for i in
range(n)`, yielding the pairs `(j, i)`. -/
def mixSteps (n : ℕ) : List (ℕ × ℕ) :=
  (List.range n).flatMap fun j => (List.range n).map fun i => (j, i)

/-- The `pos` mapping built by `get_block_mixes`: for each `(j, i)` the key
`i + j` and the value `(min i j, max i j)` are bumped. -/
def buildPos (n : ℕ) : List (ℕ × List ((ℕ × ℕ) × ℕ)) :=
  (mixSteps n).foldl
    (fun pos ji => bumpKey pos (ji.2 + ji.1) (min ji.2 ji.1, max ji.2 ji.1)) []

/-- `get_block_mixes(n_blocks)` from the source: the list of groups
(`[v for k,v in pos.items()]`, in key insertion order). -/
def get_block_mixes (n : ℕ) : List (List ((ℕ × ℕ) × ℕ)) :=
  (buildPos n).map Prod.snd

/-- Multiplicity of the unordered pair `p` in one group (0 when absent). -/
def pairCount : List ((ℕ × ℕ) × ℕ) → (ℕ × ℕ) → ℕ
  | [], _ => 0
  | (q, c) :: rest, p => if q = p then c else pairCount rest p

/-- The group stored under key `k` in `pos` (`[]` when absent). -/
def keyGroup : List (ℕ × List ((ℕ × ℕ) × ℕ)) → ℕ → List ((ℕ × ℕ) × ℕ)
  | [], _ => []
  | (k0, g) :: rest, k => if k0 = k then g else keyGroup rest k

/-- Sum of multiplicities of one group. -/
def groupSum (g : List ((ℕ × ℕ) × ℕ)) : ℕ := (g.map Prod.snd).sum

/-- The key list of `pos`, in insertion order. -/
def posKeys (pos : List (ℕ × List ((ℕ × ℕ) × ℕ))) : List ℕ := pos.map Prod.fst

/-- Key insertion: already-present keys keep their slot, new keys are
appended at the end (Python dict behaviour). -/
def insKey (ks : List ℕ) (k : ℕ) : List ℕ := if k ∈ ks then ks else ks ++ [k]

/-- Sum of all multiplicities over all groups of `pos`. -/
def posTotal (pos : List (ℕ × List ((ℕ × ℕ) × ℕ))) : ℕ :=
  (pos.map fun e => groupSum e.2).sum

/-- Number of elements of a list satisfying a decidable predicate. -/
def countIf (p : α → Prop) [DecidablePred p] : List α → ℕ
  | [] => 0
  | x :: xs => countIf p xs + if p x then 1 else 0

/-- Embedding of the SpectralMixer accumulation for one group, one channel
and one frequency bin: iterate `for ((b1_k,b2_k),mul) in block_mix.items()`,
skip the pair when `options.limit_blocks > 0` and
`abs(b1_k-b2_k) > options.limit_blocks`, otherwise add
`freq1*freq2*mul` to the accumulator (`freq b t` is the stored spectrum
value of block `b` at bin `t`). -/
def mixAccum (limit : ℕ) (group : List ((ℕ × ℕ) × ℕ)) (freq : ℕ → ℕ → ℂ) (t : ℕ) : ℂ :=
  group.foldl
    (fun acc e =>
      if 0 < limit ∧ (limit : ℤ) < |(e.1.1 : ℤ) - (e.1.2 : ℤ)| then acc
      else acc + freq e.1.1 t * freq e.1.2 t * (e.2 : ℂ))
    0

/-- Coefficients of the causal order-3 filter produced by
`signal.butter(3, ...)` (normalized so that `a0 = 1`, as scipy does). -/
structure FiltCoef where
  b0 : ℚ
  b1 : ℚ
  b2 : ℚ
  b3 : ℚ
  a1 : ℚ
  a2 : ℚ
  a3 : ℚ

/-- Internal state `zi` of `signal.lfilter` for an order-3 filter
(direct form II transposed). -/
structure FiltState where
  z0 : ℚ
  z1 : ℚ
  z2 : ℚ

/-- One sample of `signal.lfilter` in direct form II transposed:
`y = b0*x + z0`, then the delay line is updated. -/
def lfilterStep (c : FiltCoef) (s : FiltState) (x : ℚ) : ℚ × FiltState :=
  let y := c.b0 * x + s.z0
  (y, ⟨c.b1 * x + s.z1 - c.a1 * y, c.b2 * x + s.z2 - c.a2 * y, c.b3 * x - c.a3 * y⟩)

/-- `signal.lfilter(b, a, smp, zi=zi)`: filter a block, returning the
output samples and the final state. -/
def lfilter (c : FiltCoef) (s : FiltState) : List ℚ → List ℚ × FiltState
  | [] => ([], s)
  | x :: xs =>
    let ys := lfilter c (lfilterStep c s x).2 xs
    ((lfilterStep c s x).1 :: ys.1, ys.2)

/-- The segmentation loop for one channel: each block is filtered with the
state `zi20[nchannel]` carried from the previous block (no per-block
reset). -/
def lfilterChunks (c : FiltCoef) (s : FiltState) : List (List ℚ) → List (List ℚ) × FiltState
  | [] => ([], s)
  | b :: bs =>
    let y := lfilter c s b
    let ys := lfilterChunks c y.2 bs
    (y.1 :: ys.1, ys.2)

/-- Index reflection of `scipy.ndimage` boundary mode `reflect`
(`d c b a | a b c d | d c b a`), total for `n ≥ 1`. -/
def reflectIdx (n : ℕ) (t : ℤ) : ℤ :=
  let r := t % (2 * (n : ℤ))
  if r < n then r else 2 * (n : ℤ) - 1 - r

/-- Read a list at a (possibly out-of-range) position using reflected
boundary indexing. -/
def getReflect (xs : List ℚ) (t : ℤ) : ℚ :=
  xs.getD (reflectIdx xs.length t).toNat 0

/-- Embedding of `ndimage.filters.maximum_filter1d(xs, size=w)`: sliding
maximum with a window of `w` reflected samples whose leftmost offset is
`-(w/2)` (scipy centers the window at footprint index `w // 2`). -/
def maximum_filter1d (w : ℕ) (xs : List ℚ) : List ℚ :=
  (List.range xs.length).map fun (i : ℕ) =>
    ((List.range w).map fun (o : ℕ) =>
      getReflect xs ((i : ℤ) + (o : ℤ) - ((w / 2 : ℕ) : ℤ))).foldl
      max (getReflect xs ((i : ℤ) - ((w / 2 : ℕ) : ℤ)))

/-- The smoothing window size: `max(int(2.0*fft_size/sample_rate + 0.5), 2)`
(Python `int` truncates; the value is nonnegative, so this is a floor). -/
def envelope_window (sample_rate fft_size : ℕ) : ℕ :=
  max (Int.toNat ⌊2 * (fft_size : ℚ) / (sample_rate : ℚ) + 1 / 2⌋) 2

/-- The envelope smoothing step: sliding maximum then `+ 1e-9` floor. -/
def smooth_envelope (sample_rate fft_size : ℕ) (env : List ℚ) : List ℚ :=
  (maximum_filter1d (envelope_window sample_rate fft_size) env).map
    (· + 1 / 1000000000)

/-- Elementwise sum of sample buffers (`result_buf += old[:ibs]`). -/
def addVec (xs ys : List ℚ) : List ℚ := List.zipWith (· + ·) xs ys

/-- One iteration of the output loop: keep tails of length `≥ ibs`, add the
leading `ibs` samples of each to the current block's head, advance the
kept tails, and append the current block's own tail. -/
def oaStep (ibs : ℕ) (buf : List (List ℚ)) (cur : List ℚ) : List ℚ × List (List ℚ) :=
  let kept := buf.filter fun o => ibs ≤ o.length
  (kept.foldl (fun acc o => addVec acc (o.take ibs)) (cur.take ibs),
   (kept.map fun o => o.drop ibs) ++ [cur.drop ibs])

/-- The overlap-add output loop over the mixed blocks, threading `old_buf`. -/
def oaRun (ibs : ℕ) : List (List ℚ) → List (List ℚ) → List (List ℚ)
  | _, [] => []
  | buf, cur :: rest => (oaStep ibs buf cur).1 :: oaRun ibs (oaStep ibs buf cur).2 rest

/-- Overlap-add assembly of the mixed blocks, starting from `old_buf = []`:
the list of emitted output hops. -/
def overlapAdd (ibs : ℕ) (blocks : List (List ℚ)) : List (List ℚ) :=
  oaRun ibs [] blocks

/-- `np.amax` (maximum sample; blocks fed to it are nonempty in the code). -/
def npAmax : List ℚ → ℚ
  | [] => 0
  | x :: xs => xs.foldl max x

/-- `np.amin` (minimum sample). -/
def npAmin : List ℚ → ℚ
  | [] => 0
  | x :: xs => xs.foldl min x

/-- `max(np.amax(smp), -np.amin(smp))`: peak magnitude of one mixed block. -/
def blockPeak (b : List ℚ) : ℚ := max (npAmax b) (-npAmin b)

/-- The running global peak `max_smp`, initialized to `1e-6` and updated as
`max_smp = max(max_current_smp, max_smp)` over the mixed blocks. -/
def globalPeak (blocks : List (List ℚ)) : ℚ :=
  blocks.foldl (fun m b => max (blockPeak b) m) (1 / 1000000)

/-- `np.clip(x, -1.0, 1.0)`. -/
def clip (x : ℚ) : ℚ := min (max x (-1)) 1

/-- Truncation toward zero, as in the `np.int16` cast of a float value. -/
def truncZ (q : ℚ) : ℤ := if 0 ≤ q then ⌊q⌋ else -⌊-q⌋

/-- `np.int16(np.clip(x, -1.0, 1.0) * 32767.0)` for one sample. -/
def quantize16 (x : ℚ) : ℤ := truncZ (clip x * 32767)

/-- The normalization applied when a mixed block is loaded:
`np.load(...) * (0.7 / max_smp)`. -/
def scaleBlocks (blocks : List (List ℚ)) : List (List ℚ) :=
  blocks.map fun b => b.map fun x => x * (7 / 10 / globalPeak blocks)

/-- The final output sample stream (one channel): scale every mixed block by
`0.7 / max_smp`, overlap-add, clip and quantize each emitted hop, and
concatenate the written buffers. -/
def finalOutput (ibs : ℕ) (blocks : List (List ℚ)) : List ℤ :=
  ((overlapAdd ibs (scaleBlocks blocks)).map fun hop => hop.map quantize16).flatten

/-- Maximum absolute value of the written 16-bit samples. -/
def maxAbsOut (out : List ℤ) : ℤ := out.foldl (fun m x => max m |x|) 0

/-- `n_blocks = nsamples // input_block_size + 1` plus the forced extra
zero block (`n_blocks += 1`). -/
def nBlocks (nsamples ibs : ℕ) : ℕ := nsamples / ibs + 1 + 1

/-- The segmentation loop reads `n_blocks` consecutive windows of `ibs`
frames from the input stream (the final reads return short or empty
buffers, later zero-padded). -/
def segmentBlocks (ibs : ℕ) (stream : List ℚ) : List (List ℚ) :=
  (List.range (nBlocks stream.length ibs)).map fun k => (stream.drop (k * ibs)).take ibs

/-! ## Theorems -/

lemma lfilter_append (c : FiltCoef) (s : FiltState) (xs ys : List ℚ) :
    lfilter c s (xs ++ ys) =
      ((lfilter c s xs).1 ++ (lfilter c (lfilter c s xs).2 ys).1,
       (lfilter c (lfilter c s xs).2 ys).2) := by
  induction xs generalizing s with
  | nil => simp [lfilter]
  | cons x xs ih => simp [lfilter, ih]

/-- C7: filtering the blocks in order while carrying the filter state `zi`
from each block into the next produces, over the concatenation of the
blocks, exactly the same sample sequence (and final state) as one pass of
the same filter over the whole concatenated signal with the same initial
state. -/
theorem auto2x_C7_streaming_filter_refines (c : FiltCoef) (s : FiltState)
    (chunks : List (List ℚ)) :
    (lfilterChunks c s chunks).1.flatten = (lfilter c s chunks.flatten).1 ∧
    (lfilterChunks c s chunks).2 = (lfilter c s chunks.flatten).2 := by
  induction chunks generalizing s with
  | nil => simp [lfilterChunks, lfilter]
  | cons b bs ih =>
    have h := ih (lfilter c s b).2
    simp [lfilterChunks, lfilter_append, h.1, h.2]


lemma mixAccum_shift (limit : ℕ) (freq : ℕ → ℕ → ℂ) (t : ℕ)
    (l : List ((ℕ × ℕ) × ℕ)) (acc : ℂ) :
    l.foldl
      (fun acc e =>
        if 0 < limit ∧ (limit : ℤ) < |(e.1.1 : ℤ) - (e.1.2 : ℤ)| then acc
        else acc + freq e.1.1 t * freq e.1.2 t * (e.2 : ℂ)) acc =
    acc + mixAccum limit l freq t := by
  induction l generalizing acc with
  | nil => simp [mixAccum]
  | cons e l ih =>
    rw [List.foldl_cons, ih]
    have hR : mixAccum limit (e :: l) freq t =
        (if 0 < limit ∧ (limit : ℤ) < |(e.1.1 : ℤ) - (e.1.2 : ℤ)| then (0 : ℂ)
         else freq e.1.1 t * freq e.1.2 t * (e.2 : ℂ)) + mixAccum limit l freq t := by
      rw [mixAccum, List.foldl_cons, ih]
      by_cases h : 0 < limit ∧ (limit : ℤ) < |(e.1.1 : ℤ) - (e.1.2 : ℤ)|
      · rw [if_pos h, if_pos h]
      · rw [if_neg h, if_neg h, zero_add]
    rw [hR]
    by_cases h : 0 < limit ∧ (limit : ℤ) < |(e.1.1 : ℤ) - (e.1.2 : ℤ)|
    · rw [if_pos h, if_pos h, zero_add]
    · rw [if_neg h, if_neg h]
      ring

lemma mixAccum_cons (limit : ℕ) (freq : ℕ → ℕ → ℂ) (t : ℕ)
    (e : (ℕ × ℕ) × ℕ) (l : List ((ℕ × ℕ) × ℕ)) :
    mixAccum limit (e :: l) freq t =
      (if 0 < limit ∧ (limit : ℤ) < |(e.1.1 : ℤ) - (e.1.2 : ℤ)| then (0 : ℂ)
       else freq e.1.1 t * freq e.1.2 t * (e.2 : ℂ)) + mixAccum limit l freq t := by
  rw [mixAccum, List.foldl_cons, mixAccum_shift]
  by_cases h : 0 < limit ∧ (limit : ℤ) < |(e.1.1 : ℤ) - (e.1.2 : ℤ)|
  · rw [if_pos h, if_pos h]
  · rw [if_neg h, if_neg h, zero_add]

/-- C3: with `limit_blocks = L > 0`, pairs `(i, j)` with `|i - j| > L` are
skipped by the accumulation loop: the accumulated spectrum value (at every
frequency bin, hence for every channel) equals the accumulation over only
the pairs with `|i - j| ≤ L`, and a group all of whose pairs lie beyond
the limit accumulates exactly the zero spectrum. -/
theorem auto2x_C3_adjacency_limit (limit : ℕ) (group : List ((ℕ × ℕ) × ℕ))
    (freq : ℕ → ℕ → ℂ) (t : ℕ) (hL : 0 < limit) :
    mixAccum limit group freq t =
      mixAccum limit
        (group.filter fun e => |(e.1.1 : ℤ) - (e.1.2 : ℤ)| ≤ (limit : ℤ)) freq t ∧
    ((∀ e ∈ group, (limit : ℤ) < |(e.1.1 : ℤ) - (e.1.2 : ℤ)|) →
      mixAccum limit group freq t = 0) := by
  constructor
  · induction group with
    | nil => rfl
    | cons e l ih =>
      rw [mixAccum_cons, List.filter_cons]
      by_cases h : (limit : ℤ) < |(e.1.1 : ℤ) - (e.1.2 : ℤ)|
      · rw [if_pos (And.intro hL h), zero_add,
          if_neg (by simpa using not_le.mpr h)]
        exact ih
      · rw [if_neg fun hc => h hc.2,
          if_pos (by simpa using not_lt.mp h), mixAccum_cons,
          if_neg fun hc => h hc.2, ih]
  · intro hall
    induction group with
    | nil => rfl
    | cons e l ih =>
      rw [mixAccum_cons, if_pos (And.intro hL (hall e (List.mem_cons_self e l))),
        zero_add]
      exact ih fun x hx => hall x (List.mem_cons_of_mem e hx)

/-- Witness for C3 at a concrete input: limit 1, a single pair `(0, 3)`
beyond the limit, constant spectra. -/
theorem auto2x_C3_adjacency_limit_witness :
    0 < 1 ∧ mixAccum 1 [((0, 3), 2)] (fun _ _ => (1 : ℂ)) 0 = 0 :=
  ⟨Nat.one_pos,
   (auto2x_C3_adjacency_limit 1 [((0, 3), 2)] (fun _ _ => (1 : ℂ)) 0 Nat.one_pos).2
     (by decide)⟩

/-- C6: the segmentation loop produces exactly
`floor(total_samples / input_block_size) + 2` blocks, and the forced final
block reads no input samples at all (it is entirely zero padding). -/
theorem auto2x_C6_block_count (stream : List ℚ) (ibs : ℕ) (h : 1 ≤ ibs) :
    (segmentBlocks ibs stream).length = stream.length / ibs + 2 ∧
    (segmentBlocks ibs stream).getLast? = some [] := by
  have hlen : stream.length ≤ (stream.length / ibs + 1) * ibs := by
    have hd := Nat.div_add_mod stream.length ibs
    have hm : stream.length % ibs < ibs := Nat.mod_lt _ h
    calc stream.length = ibs * (stream.length / ibs) + stream.length % ibs := hd.symm
      _ ≤ ibs * (stream.length / ibs) + ibs := Nat.add_le_add_left hm.le _
      _ = (stream.length / ibs + 1) * ibs := by ring
  constructor
  · simp [segmentBlocks, nBlocks]
  · unfold segmentBlocks nBlocks
    rw [List.range_succ, List.map_append, List.map_singleton, List.getLast?_concat]
    rw [List.drop_eq_nil_of_le hlen, List.take_nil]

/-- Witness for C6 at a concrete input: 3 frames, block size 2 give
`3 / 2 + 2 = 3` blocks, the last one empty. -/
theorem auto2x_C6_block_count_witness :
    1 ≤ 2 ∧ (segmentBlocks 2 [(1 : ℚ), 2, 3]).length = [(1 : ℚ), 2, 3].length / 2 + 2 :=
  ⟨by decide, (auto2x_C6_block_count [(1 : ℚ), 2, 3] 2 (by decide)).1⟩

lemma addVec_zero_right (xs ys : List ℚ) (hy : ∀ y ∈ ys, y = 0)
    (hlen : xs.length ≤ ys.length) : addVec xs ys = xs := by
  induction xs generalizing ys with
  | nil => rfl
  | cons x xs ih =>
    cases ys with
    | nil => simp at hlen
    | cons y ys =>
      have hy0 : y = 0 := hy y (List.mem_cons_self y ys)
      show (x + y) :: addVec xs ys = x :: xs
      rw [hy0, add_zero, ih ys (fun z hz => hy z (List.mem_cons_of_mem y hz))
        (by simpa using hlen)]

lemma foldl_addVec_zero (ibs : ℕ) (l : List (List ℚ)) (acc : List ℚ)
    (hl : ∀ o ∈ l, (∀ x ∈ o, x = 0) ∧ ibs ≤ o.length)
    (hacc : acc.length ≤ ibs) :
    l.foldl (fun acc o => addVec acc (o.take ibs)) acc = acc := by
  induction l with
  | nil => rfl
  | cons o l ih =>
    rw [List.foldl_cons,
      addVec_zero_right acc (o.take ibs)
        (fun y hy => (hl o (List.mem_cons_self o l)).1 y (List.mem_of_mem_take hy))
        (by
          rw [List.length_take]
          exact le_min hacc (hacc.trans (hl o (List.mem_cons_self o l)).2))]
    exact ih fun o ho => hl o (List.mem_cons_of_mem _ ho)

lemma oaRun_no_tails (ibs : ℕ) (blocks : List (List ℚ)) : ∀ buf,
    (∀ o ∈ buf, ∀ x ∈ o, x = 0) →
    (∀ b ∈ blocks, ∀ x ∈ b.drop ibs, x = 0) →
    oaRun ibs buf blocks = blocks.map fun b => b.take ibs := by
  induction blocks with
  | nil => intro buf _ _; rfl
  | cons cur rest ih =>
    intro buf hbuf hblocks
    have hkept : ∀ o ∈ buf.filter (fun o => ibs ≤ o.length), (∀ x ∈ o, x = 0) ∧ ibs ≤ o.length := by
      intro o ho
      have hmem := List.mem_filter.mp ho
      exact ⟨hbuf o hmem.1, of_decide_eq_true hmem.2⟩
    have hhead : (oaStep ibs buf cur).1 = cur.take ibs := by
      unfold oaStep
      exact foldl_addVec_zero ibs _ _ hkept
        (by rw [List.length_take]; exact min_le_left _ _)
    have hbuf2 : ∀ o ∈ (oaStep ibs buf cur).2, ∀ x ∈ o, x = 0 := by
      intro o ho x hx
      unfold oaStep at ho
      rcases List.mem_append.mp ho with hL | hR
      · rcases List.mem_map.mp hL with ⟨o0, ho0, rfl⟩
        exact (hkept o0 ho0).1 x (List.mem_of_mem_drop hx)
      · rw [List.mem_singleton.mp hR] at hx
        exact hblocks cur (List.mem_cons_self cur rest) x hx
    simp only [oaRun, List.map_cons]
    rw [hhead, ih _ hbuf2 fun b hb => hblocks b (List.mem_cons_of_mem cur hb)]

/-- C5: if every mixed block is zero beyond its first `input_block_size`
samples, the assembled output is the plain concatenation of each block's
head segment (the first `input_block_size` samples of each block, in
order): no cross-block addition alters any sample. -/
theorem auto2x_C5_overlap_add_no_tail (ibs : ℕ) (blocks : List (List ℚ))
    (h : ∀ b ∈ blocks, ∀ x ∈ b.drop ibs, x = 0) :
    (overlapAdd ibs blocks).flatten = (blocks.map fun b => b.take ibs).flatten := by
  rw [overlapAdd, oaRun_no_tails ibs blocks [] (by simp) h]

/-- Witness for C5 at a concrete input: two blocks of length 2, hop 1,
all tails zero. -/
theorem auto2x_C5_overlap_add_no_tail_witness :
    (∀ b ∈ [[(2 : ℚ), 0], [(3 : ℚ), 0]], ∀ x ∈ b.drop 1, x = 0) ∧
    (overlapAdd 1 [[(2 : ℚ), 0], [(3 : ℚ), 0]]).flatten =
      ([[(2 : ℚ), 0], [(3 : ℚ), 0]].map fun b => b.take 1).flatten :=
  ⟨by decide, auto2x_C5_overlap_add_no_tail 1 _ (by decide)⟩

lemma strip2_pos : ∀ n, 0 < n → 0 < strip2 n := by
  intro n
  induction n using Nat.strong_induction_on with
  | _ n ih =>
    intro hn
    rw [strip2]
    split_ifs with h
    · have h1 := h.1
      exact ih (n / 2) (Nat.div_lt_self hn one_lt_two)
        (Nat.div_pos (by omega) two_pos)
    · exact hn

lemma strip3_pos : ∀ n, 0 < n → 0 < strip3 n := by
  intro n
  induction n using Nat.strong_induction_on with
  | _ n ih =>
    intro hn
    rw [strip3]
    split_ifs with h
    · have h1 := h.1
      exact ih (n / 3) (Nat.div_lt_self hn (by norm_num))
        (Nat.div_pos (by omega) (by norm_num))
    · exact hn

lemma strip2_dvd : ∀ n, strip2 n ∣ n := by
  intro n
  induction n using Nat.strong_induction_on with
  | _ n ih =>
    rw [strip2]
    split_ifs with h
    · have h2 : 2 ∣ n := Nat.dvd_of_mod_eq_zero h.1
      exact dvd_trans (ih (n / 2) (Nat.div_lt_self h.2 one_lt_two))
        ⟨2, (Nat.div_mul_cancel h2).symm⟩
    · exact dvd_refl n

lemma strip3_dvd : ∀ n, strip3 n ∣ n := by
  intro n
  induction n using Nat.strong_induction_on with
  | _ n ih =>
    rw [strip3]
    split_ifs with h
    · have h3 : 3 ∣ n := Nat.dvd_of_mod_eq_zero h.1
      exact dvd_trans (ih (n / 3) (Nat.div_lt_self h.2 (by norm_num)))
        ⟨3, (Nat.div_mul_cancel h3).symm⟩
    · exact dvd_refl n

lemma strip2_not_two_dvd : ∀ n, 0 < n → ¬ 2 ∣ strip2 n := by
  intro n
  induction n using Nat.strong_induction_on with
  | _ n ih =>
    intro hn
    rw [strip2]
    split_ifs with h
    · have h1 := h.1
      exact ih (n / 2) (Nat.div_lt_self hn one_lt_two)
        (Nat.div_pos (by omega) two_pos)
    · intro hdvd
      exact h ⟨by omega, hn⟩

lemma strip3_not_three_dvd : ∀ n, 0 < n → ¬ 3 ∣ strip3 n := by
  intro n
  induction n using Nat.strong_induction_on with
  | _ n ih =>
    intro hn
    rw [strip3]
    split_ifs with h
    · have h1 := h.1
      exact ih (n / 3) (Nat.div_lt_self hn (by norm_num))
        (Nat.div_pos (by omega) (by norm_num))
    · intro hdvd
      exact h ⟨by omega, hn⟩

lemma strip2_prime_dvd (p : ℕ) (hp : p.Prime) (hp2 : p ≠ 2) :
    ∀ n, 0 < n → (p ∣ strip2 n ↔ p ∣ n) := by
  intro n
  induction n using Nat.strong_induction_on with
  | _ n ih =>
    intro hn
    rw [strip2]
    split_ifs with h
    · have h1 := h.1
      have h2 : 2 ∣ n := Nat.dvd_of_mod_eq_zero h.1
      rw [ih (n / 2) (Nat.div_lt_self hn one_lt_two) (Nat.div_pos (by omega) two_pos)]
      constructor
      · intro hd
        exact dvd_trans hd ⟨2, (Nat.div_mul_cancel h2).symm⟩
      · intro hd
        have hmul : n / 2 * 2 = n := Nat.div_mul_cancel h2
        rcases (Nat.Prime.dvd_mul hp).mp (hmul.symm ▸ hd) with hA | hB
        · exact hA
        · rcases (Nat.dvd_prime Nat.prime_two).mp hB with h1 | h1
          · exact absurd h1 hp.ne_one
          · exact absurd h1 hp2
    · exact Iff.rfl

lemma strip3_prime_dvd (p : ℕ) (hp : p.Prime) (hp3 : p ≠ 3) :
    ∀ n, 0 < n → (p ∣ strip3 n ↔ p ∣ n) := by
  intro n
  induction n using Nat.strong_induction_on with
  | _ n ih =>
    intro hn
    rw [strip3]
    split_ifs with h
    · have h1 := h.1
      have h3 : 3 ∣ n := Nat.dvd_of_mod_eq_zero h.1
      rw [ih (n / 3) (Nat.div_lt_self hn (by norm_num)) (Nat.div_pos (by omega) (by norm_num))]
      constructor
      · intro hd
        exact dvd_trans hd ⟨3, (Nat.div_mul_cancel h3).symm⟩
      · intro hd
        have hmul : n / 3 * 3 = n := Nat.div_mul_cancel h3
        rcases (Nat.Prime.dvd_mul hp).mp (hmul.symm ▸ hd) with hA | hB
        · exact hA
        · rcases (Nat.dvd_prime Nat.prime_three).mp hB with h1 | h1
          · exact absurd h1 hp.ne_one
          · exact absurd h1 hp3
    · exact Iff.rfl

lemma reduce23_lt_two_iff (m : ℕ) (hm : 0 < m) :
    reduce23 m < 2 ↔ ∀ p, p.Prime → p ∣ m → p = 2 ∨ p = 3 := by
  have h2pos : 0 < strip2 m := strip2_pos m hm
  have hrpos : 0 < reduce23 m := strip3_pos _ h2pos
  constructor
  · intro hlt p hp hpm
    by_contra hcon
    push_neg at hcon
    have h1 : p ∣ strip2 m := (strip2_prime_dvd p hp hcon.1 m hm).mpr hpm
    have h2 : p ∣ reduce23 m := (strip3_prime_dvd p hp hcon.2 _ h2pos).mpr h1
    have hone : reduce23 m = 1 := by omega
    rw [hone] at h2
    exact hp.ne_one (Nat.dvd_one.mp h2)
  · intro hall
    by_contra hge
    obtain ⟨p, hp, hpd⟩ := Nat.exists_prime_and_dvd (show reduce23 m ≠ 1 by omega)
    have hp2 : p ∣ strip2 m := dvd_trans hpd (strip3_dvd _)
    have hpm : p ∣ m := dvd_trans hp2 (strip2_dvd _)
    rcases hall p hp hpm with rfl | rfl
    · exact strip2_not_two_dvd m hm hp2
    · exact strip3_not_three_dvd (strip2 m) h2pos hpd

lemma searchFrom_spec : ∀ (fuel n m0 : ℕ), n ≤ m0 → m0 < n + fuel → reduce23 m0 < 2 →
    ∃ m, searchFrom fuel n = some m ∧ n ≤ m ∧ m ≤ m0 ∧ reduce23 m < 2 ∧
      ∀ j, n ≤ j → j < m → ¬ reduce23 j < 2 := by
  intro fuel
  induction fuel with
  | zero =>
    intro n m0 h1 h2 _
    exact absurd h2 (by omega)
  | succ fuel ih =>
    intro n m0 h1 h2 h3
    by_cases h : reduce23 n < 2
    · refine ⟨n, ?_, le_refl n, h1, h, ?_⟩
      · rw [searchFrom, if_pos h]
      · intro j hj1 hj2
        exact absurd (lt_of_le_of_lt hj1 hj2) (lt_irrefl n)
    · have hm0n : n ≠ m0 := fun he => h (he ▸ h3)
      obtain ⟨m, hs, hge, hle, hred, hmin⟩ := ih (n + 1) m0 (by omega) (by omega) h3
      refine ⟨m, ?_, by omega, hle, hred, ?_⟩
      · rw [searchFrom, if_neg h]
        exact hs
      · intro j hj1 hj2
        by_cases hjn : j = n
        · exact hjn ▸ h
        · exact hmin j (by omega) hj2

lemma exists_pow2_between : ∀ n, 1 ≤ n → ∃ k, n ≤ 2 ^ k ∧ 2 ^ k < 2 * n := by
  intro n
  induction n with
  | zero => intro h; exact absurd h (by omega)
  | succ n ih =>
    intro _
    by_cases hn : n = 0
    · exact ⟨0, by omega, by omega⟩
    · obtain ⟨k, h1, h2⟩ := ih (by omega)
      by_cases hle : n + 1 ≤ 2 ^ k
      · exact ⟨k, hle, by omega⟩
      · have h2k : 2 ^ k = n := by omega
        refine ⟨k + 1, ?_, ?_⟩
        · rw [pow_succ]
          omega
        · rw [pow_succ]
          omega

lemma strip2_two_pow : ∀ k, strip2 (2 ^ k) = 1 := by
  intro k
  induction k with
  | zero =>
    rw [pow_zero, strip2]
    norm_num
  | succ k ih =>
    rw [strip2]
    have hpos : 0 < 2 ^ (k + 1) := Nat.pos_pow_of_pos _ two_pos
    have hmod : 2 ^ (k + 1) % 2 = 0 := by
      rw [pow_succ]
      omega
    rw [dif_pos ⟨hmod, hpos⟩]
    have hdiv : 2 ^ (k + 1) / 2 = 2 ^ k := by
      rw [pow_succ]
      exact Nat.mul_div_cancel _ two_pos
    rw [hdiv]
    exact ih

lemma reduce23_two_pow (k : ℕ) : reduce23 (2 ^ k) < 2 := by
  rw [reduce23, strip2_two_pow, strip3]
  norm_num

/-- C2: for every `n ≥ 1`, `optimize_fft_size n` is at least `n`, its
repeated division by 2 then 3 leaves a value `< 2` (equivalently its only
prime factors are 2 and 3), it is the smallest such candidate `≥ n`, and
it equals `n` whenever `n` itself already has the property. -/
theorem auto2x_C2_optimize_fft_size (n : ℕ) (hn : 1 ≤ n) :
    n ≤ optimize_fft_size n ∧
    reduce23 (optimize_fft_size n) < 2 ∧
    (∀ m, n ≤ m → m < optimize_fft_size n → ¬ reduce23 m < 2) ∧
    (reduce23 (optimize_fft_size n) < 2 ↔
      ∀ p, p.Prime → p ∣ optimize_fft_size n → p = 2 ∨ p = 3) ∧
    (reduce23 n < 2 → optimize_fft_size n = n) := by
  obtain ⟨k, hk1, hk2⟩ := exists_pow2_between n hn
  obtain ⟨m, hs, hge, hle, hred, hmin⟩ :=
    searchFrom_spec (n + 1) n (2 ^ k) hk1 (by omega) (reduce23_two_pow k)
  have hopt : optimize_fft_size n = m := by
    rw [optimize_fft_size, hs]
    rfl
  rw [hopt]
  refine ⟨hge, hred, hmin, reduce23_lt_two_iff m (by omega), ?_⟩
  intro hred_n
  by_contra hne
  exact hmin n le_rfl (lt_of_le_of_ne hge fun he => hne he.symm) hred_n

/-- Witness for C2 at `n = 5`: the optimizer output is `≥ 5` and 2,3-smooth. -/
theorem auto2x_C2_optimize_fft_size_witness :
    1 ≤ 5 ∧ 5 ≤ optimize_fft_size 5 ∧ reduce23 (optimize_fft_size 5) < 2 :=
  ⟨by norm_num, (auto2x_C2_optimize_fft_size 5 (by norm_num)).1,
   (auto2x_C2_optimize_fft_size 5 (by norm_num)).2.1⟩

/-- C10: for every `n ≥ 1` the `while True` search loop of
`optimize_fft_size` terminates (fuel `n + 1` suffices, because a power of
two lies in `[n, 2n]`), returning a value whose stripped form is `< 2`;
and starting from `n = 0` the guard of the inner `while (n%2)==0` loop
still holds after any number of iterations, so Python's loop never exits
there. -/
theorem auto2x_C10_termination :
    (∀ n, 1 ≤ n → ∃ m, searchFrom (n + 1) n = some m ∧ reduce23 m < 2) ∧
    (∀ k, strip2_loop k 0 % 2 = 0) := by
  constructor
  · intro n hn
    obtain ⟨k, hk1, hk2⟩ := exists_pow2_between n hn
    obtain ⟨m, hs, _, _, hred, _⟩ :=
      searchFrom_spec (n + 1) n (2 ^ k) hk1 (by omega) (reduce23_two_pow k)
    exact ⟨m, hs, hred⟩
  · intro k
    have hzero : strip2_loop k 0 = 0 := by
      induction k with
      | zero => rfl
      | succ k ih => exact ih
    rw [hzero]

/-- Witness for C10 at `n = 1`: the fueled search loop halts. -/
theorem auto2x_C10_termination_witness :
    1 ≤ 1 ∧ ∃ m, searchFrom (1 + 1) 1 = some m ∧ reduce23 m < 2 :=
  ⟨le_refl 1, auto2x_C10_termination.1 1 (le_refl 1)⟩

lemma getD_nonneg (xs : List ℚ) (h : ∀ x ∈ xs, 0 ≤ x) (i : ℕ) : 0 ≤ xs.getD i 0 := by
  induction xs generalizing i with
  | nil => simp [List.getD]
  | cons x xs ih =>
    cases i with
    | zero =>
      rw [List.getD_cons_zero]
      exact h x (List.mem_cons_self x xs)
    | succ i =>
      rw [List.getD_cons_succ]
      exact ih (fun z hz => h z (List.mem_cons_of_mem x hz)) i

lemma getReflect_nonneg (xs : List ℚ) (h : ∀ x ∈ xs, 0 ≤ x) (t : ℤ) :
    0 ≤ getReflect xs t :=
  getD_nonneg xs h _

lemma foldl_max_nonneg (l : List ℚ) (a : ℚ) (ha : 0 ≤ a) : 0 ≤ l.foldl max a := by
  induction l generalizing a with
  | nil => exact ha
  | cons x l ih => exact ih (max a x) (le_trans ha (le_max_left a x))

/-- C8: the envelope smoother has window size
`max(round(2*spectrum_length/sample_rate), 2) ≥ 2`, preserves the
envelope's length, and after the sliding maximum and the `+1e-9` floor
every entry of the smoothed envelope is at least `1e-9`, hence strictly
positive — so the SpectralMixer's elementwise division by the envelope
never divides by zero, even for an all-zero or empty channel. -/
theorem auto2x_C8_envelope_floor (sr fs : ℕ) (env : List ℚ)
    (henv : ∀ x ∈ env, 0 ≤ x) :
    2 ≤ envelope_window sr fs ∧
    (smooth_envelope sr fs env).length = env.length ∧
    ∀ y ∈ smooth_envelope sr fs env, (1 / 1000000000 : ℚ) ≤ y ∧ 0 < y := by
  refine ⟨le_max_right _ _, ?_, ?_⟩
  · simp [smooth_envelope, maximum_filter1d]
  · intro y hy
    unfold smooth_envelope at hy
    rcases List.mem_map.mp hy with ⟨m, hm, rfl⟩
    have hm0 : 0 ≤ m := by
      unfold maximum_filter1d at hm
      rcases List.mem_map.mp hm with ⟨i, _, rfl⟩
      exact foldl_max_nonneg _ _ (getReflect_nonneg env henv _)
    constructor
    · linarith
    · linarith

/-- Witness for C8 at a concrete input: an all-zero two-bin envelope. -/
theorem auto2x_C8_envelope_floor_witness :
    (∀ x ∈ [(0 : ℚ), 0], 0 ≤ x) ∧
    (smooth_envelope 1 1 [(0 : ℚ), 0]).length = [(0 : ℚ), 0].length :=
  ⟨by decide, (auto2x_C8_envelope_floor 1 1 [(0 : ℚ), 0] (by decide)).2.1⟩

lemma pairCount_bumpPair (g : List ((ℕ × ℕ) × ℕ)) (p q : ℕ × ℕ) :
    pairCount (bumpPair g p) q = pairCount g q + if q = p then 1 else 0 := by
  induction g with
  | nil =>
    by_cases h : q = p
    · subst h
      simp [bumpPair, pairCount]
    · simp [bumpPair, pairCount, h, Ne.symm h]
  | cons e rest ih =>
    obtain ⟨q0, c⟩ := e
    by_cases h0 : q0 = p
    · subst h0
      by_cases h : q0 = q
      · subst h
        simp [bumpPair, pairCount]
      · simp [bumpPair, pairCount, h, Ne.symm h]
    · by_cases h : q0 = q
      · subst h
        simp [bumpPair, pairCount, h0, Ne.symm h0]
      · simp [bumpPair, pairCount, h0, h, ih]

lemma keyGroup_bumpKey (pos : List (ℕ × List ((ℕ × ℕ) × ℕ))) (k k' : ℕ) (p : ℕ × ℕ) :
    keyGroup (bumpKey pos k p) k' =
      if k' = k then bumpPair (keyGroup pos k) p else keyGroup pos k' := by
  induction pos with
  | nil =>
    by_cases h : k' = k
    · subst h
      simp [bumpKey, keyGroup]
    · simp [bumpKey, keyGroup, h, Ne.symm h]
  | cons e rest ih =>
    obtain ⟨k0, g⟩ := e
    by_cases h0 : k0 = k
    · subst h0
      by_cases h : k' = k0
      · subst h
        simp [bumpKey, keyGroup]
      · simp [bumpKey, keyGroup, h, Ne.symm h]
    · by_cases h : k0 = k'
      · subst h
        simp [bumpKey, keyGroup, h0, Ne.symm h0]
      · simp [bumpKey, keyGroup, h0, h, ih]

lemma posKeys_bumpKey (pos : List (ℕ × List ((ℕ × ℕ) × ℕ))) (k : ℕ) (p : ℕ × ℕ) :
    posKeys (bumpKey pos k p) = insKey (posKeys pos) k := by
  induction pos with
  | nil => simp [bumpKey, posKeys, insKey]
  | cons e rest ih =>
    obtain ⟨k0, g⟩ := e
    by_cases h0 : k0 = k
    · subst h0
      simp [bumpKey, posKeys, insKey]
    · simp only [bumpKey, if_neg h0, posKeys, List.map_cons]
      simp only [posKeys] at ih
      rw [ih, insKey, insKey]
      by_cases hk : k ∈ rest.map Prod.fst
      · rw [if_pos hk, if_pos (List.mem_cons_of_mem k0 hk)]
      · rw [if_neg hk, if_neg (by
          intro hmem
          rcases List.mem_cons.mp hmem with he | hm
          · exact h0 he.symm
          · exact hk hm)]
        rfl

lemma groupSum_bumpPair (g : List ((ℕ × ℕ) × ℕ)) (p : ℕ × ℕ) :
    groupSum (bumpPair g p) = groupSum g + 1 := by
  induction g with
  | nil => simp [bumpPair, groupSum]
  | cons e rest ih =>
    obtain ⟨q0, c⟩ := e
    by_cases h0 : q0 = p
    · subst h0
      simp [bumpPair, groupSum]
      omega
    · simp [bumpPair, groupSum, h0] at *
      omega

lemma posTotal_bumpKey (pos : List (ℕ × List ((ℕ × ℕ) × ℕ))) (k : ℕ) (p : ℕ × ℕ) :
    posTotal (bumpKey pos k p) = posTotal pos + 1 := by
  induction pos with
  | nil => simp [bumpKey, posTotal, groupSum, bumpPair]
  | cons e rest ih =>
    obtain ⟨k0, g⟩ := e
    by_cases h0 : k0 = k
    · subst h0
      simp [bumpKey, posTotal, groupSum_bumpPair]
      omega
    · simp [bumpKey, posTotal, h0] at *
      omega

lemma pairCount_foldSteps (L : List (ℕ × ℕ)) (pos : List (ℕ × List ((ℕ × ℕ) × ℕ)))
    (k : ℕ) (q : ℕ × ℕ) :
    pairCount (keyGroup
      (L.foldl (fun pos ji => bumpKey pos (ji.2 + ji.1) (min ji.2 ji.1, max ji.2 ji.1)) pos) k) q =
    pairCount (keyGroup pos k) q +
      countIf (fun ji => ji.2 + ji.1 = k ∧ (min ji.2 ji.1, max ji.2 ji.1) = q) L := by
  induction L generalizing pos with
  | nil => simp [countIf]
  | cons ji L ih =>
    rw [List.foldl_cons, ih]
    simp only [countIf]
    rw [keyGroup_bumpKey]
    by_cases hP : ji.2 + ji.1 = k ∧ (min ji.2 ji.1, max ji.2 ji.1) = q
    · rw [if_pos hP, if_pos hP.1.symm, pairCount_bumpPair, if_pos hP.2.symm, hP.1]
      omega
    · rw [if_neg hP]
      by_cases hk : k = ji.2 + ji.1
      · rw [if_pos hk, pairCount_bumpPair,
          if_neg fun hq => hP ⟨hk.symm, hq.symm⟩, add_zero, hk]
        omega
      · rw [if_neg hk]
        omega

lemma groupSum_foldSteps (L : List (ℕ × ℕ)) (pos : List (ℕ × List ((ℕ × ℕ) × ℕ))) (k : ℕ) :
    groupSum (keyGroup
      (L.foldl (fun pos ji => bumpKey pos (ji.2 + ji.1) (min ji.2 ji.1, max ji.2 ji.1)) pos) k) =
    groupSum (keyGroup pos k) + countIf (fun ji => ji.2 + ji.1 = k) L := by
  induction L generalizing pos with
  | nil => simp [countIf]
  | cons ji L ih =>
    rw [List.foldl_cons, ih]
    simp only [countIf]
    rw [keyGroup_bumpKey]
    by_cases hk : k = ji.2 + ji.1
    · rw [if_pos hk, groupSum_bumpPair, if_pos hk.symm, hk]
      omega
    · rw [if_neg hk, if_neg fun h => hk h.symm]
      omega

lemma posTotal_foldSteps (L : List (ℕ × ℕ)) (pos : List (ℕ × List ((ℕ × ℕ) × ℕ))) :
    posTotal
      (L.foldl (fun pos ji => bumpKey pos (ji.2 + ji.1) (min ji.2 ji.1, max ji.2 ji.1)) pos) =
    posTotal pos + L.length := by
  induction L generalizing pos with
  | nil => simp
  | cons ji L ih =>
    rw [List.foldl_cons, ih, posTotal_bumpKey, List.length_cons]
    omega

lemma posKeys_foldSteps (L : List (ℕ × ℕ)) (pos : List (ℕ × List ((ℕ × ℕ) × ℕ))) :
    posKeys
      (L.foldl (fun pos ji => bumpKey pos (ji.2 + ji.1) (min ji.2 ji.1, max ji.2 ji.1)) pos) =
    (L.map fun ji => ji.2 + ji.1).foldl insKey (posKeys pos) := by
  induction L generalizing pos with
  | nil => rfl
  | cons ji L ih =>
    rw [List.foldl_cons, ih, posKeys_bumpKey, List.map_cons, List.foldl_cons]

lemma countIf_append (p : α → Prop) [DecidablePred p] (l1 l2 : List α) :
    countIf p (l1 ++ l2) = countIf p l1 + countIf p l2 := by
  induction l1 with
  | nil => simp [countIf]
  | cons x xs ih =>
    rw [List.cons_append]
    simp only [countIf]
    rw [ih]
    omega

lemma countIf_flatMap (p : β → Prop) [DecidablePred p] (l : List α) (f : α → List β) :
    countIf p (l.flatMap f) = (l.map fun a => countIf p (f a)).sum := by
  induction l with
  | nil => rfl
  | cons x xs ih =>
    rw [List.flatMap_cons, countIf_append, ih, List.map_cons, List.sum_cons]

lemma countIf_map (p : β → Prop) [DecidablePred p] (f : α → β) (l : List α) :
    countIf p (l.map f) = countIf (fun a => p (f a)) l := by
  induction l with
  | nil => rfl
  | cons x xs ih =>
    simp only [List.map_cons, countIf, ih]

lemma countIf_congr (p q : α → Prop) [DecidablePred p] [DecidablePred q] (l : List α)
    (h : ∀ x ∈ l, p x ↔ q x) : countIf p l = countIf q l := by
  induction l with
  | nil => rfl
  | cons x xs ih =>
    simp only [countIf]
    rw [ih fun z hz => h z (List.mem_cons_of_mem x hz)]
    by_cases hp : p x
    · rw [if_pos hp, if_pos ((h x (List.mem_cons_self x xs)).mp hp)]
    · rw [if_neg hp, if_neg fun hq => hp ((h x (List.mem_cons_self x xs)).mpr hq)]

lemma countIf_eq_zero (p : α → Prop) [DecidablePred p] (l : List α)
    (h : ∀ x ∈ l, ¬ p x) : countIf p l = 0 := by
  induction l with
  | nil => rfl
  | cons x xs ih =>
    simp only [countIf]
    rw [ih fun z hz => h z (List.mem_cons_of_mem x hz),
      if_neg (h x (List.mem_cons_self x xs))]

lemma countIf_range_sum (p : ℕ → Prop) [DecidablePred p] (n : ℕ) :
    countIf p (List.range n) = ∑ i in Finset.range n, if p i then 1 else 0 := by
  induction n with
  | zero => rfl
  | succ n ih =>
    rw [List.range_succ, countIf_append, ih, Finset.sum_range_succ]
    simp [countIf]

lemma sum_map_range (g : ℕ → ℕ) (n : ℕ) :
    ((List.range n).map g).sum = ∑ i in Finset.range n, g i := by
  induction n with
  | zero => rfl
  | succ n ih =>
    rw [List.range_succ, List.map_append, List.sum_append, ih, Finset.sum_range_succ]
    simp

lemma mem_mixSteps (n : ℕ) (x : ℕ × ℕ) : x ∈ mixSteps n ↔ x.1 < n ∧ x.2 < n := by
  constructor
  · intro hx
    rcases List.mem_flatMap.mp hx with ⟨j, hj, hx2⟩
    rcases List.mem_map.mp hx2 with ⟨i, hi, rfl⟩
    exact ⟨List.mem_range.mp hj, List.mem_range.mp hi⟩
  · intro hx
    exact List.mem_flatMap.mpr
      ⟨x.1, List.mem_range.mpr hx.1, List.mem_map.mpr ⟨x.2, List.mem_range.mpr hx.2, rfl⟩⟩

lemma length_mixSteps (n : ℕ) : (mixSteps n).length = n * n := by
  rw [mixSteps, List.length_flatMap]
  have h1 : (List.map (List.length ∘ fun j => List.map (fun i : ℕ => (j, i)) (List.range n))
      (List.range n)) = List.map (fun _ => n) (List.range n) := by
    apply List.map_congr_left
    intro j _
    simp
  rw [h1, sum_map_range]
  simp [Finset.sum_const, Finset.card_range, smul_eq_mul, mul_comm]

lemma countIf_range_eq (n c : ℕ) :
    countIf (fun i => i = c) (List.range n) = if c < n then 1 else 0 := by
  rw [countIf_range_sum, Finset.sum_ite_eq' (Finset.range n) c fun _ => 1]
  by_cases h : c < n
  · rw [if_pos (Finset.mem_range.mpr h), if_pos h]
  · rw [if_neg fun hm => h (Finset.mem_range.mp hm), if_neg h]

lemma countIf_single_pair (n c d : ℕ) (hc : c < n) (hd : d < n) :
    countIf (fun ji : ℕ × ℕ => ji = (c, d)) (mixSteps n) = 1 := by
  rw [mixSteps, countIf_flatMap]
  have hinner : ∀ j, countIf (fun ji : ℕ × ℕ => ji = (c, d))
      ((List.range n).map fun i => (j, i)) =
      if j = c then (if d < n then 1 else 0) else 0 := by
    intro j
    rw [countIf_map]
    by_cases hj : j = c
    · subst hj
      rw [if_pos rfl,
        countIf_congr _ (fun i => i = d) _ (fun i _ => by
          simp only [Prod.mk.injEq, true_and]),
        countIf_range_eq]
    · rw [if_neg hj]
      exact countIf_eq_zero _ _ fun i _ hP => hj (congrArg Prod.fst hP)
  rw [List.map_congr_left fun j _ => hinner j, sum_map_range,
    Finset.sum_ite_eq' (Finset.range n) c fun _ => if d < n then 1 else 0,
    if_pos (Finset.mem_range.mpr hc), if_pos hd]

lemma countIf_or_single (l : List (ℕ × ℕ)) (u v : ℕ × ℕ) (huv : u ≠ v) :
    countIf (fun x => x = u ∨ x = v) l =
      countIf (fun x => x = u) l + countIf (fun x => x = v) l := by
  induction l with
  | nil => rfl
  | cons x xs ih =>
    simp only [countIf]
    rw [ih]
    by_cases hxu : x = u
    · rw [if_pos (Or.inl hxu), if_pos hxu, if_neg fun hv => huv (hxu.symm.trans hv)]
      omega
    · by_cases hxv : x = v
      · rw [if_pos (Or.inr hxv), if_neg hxu, if_pos hxv]
        omega
      · rw [if_neg fun h => h.elim hxu hxv, if_neg hxu, if_neg hxv]
        omega

lemma countIf_pairs_eval (n k a b : ℕ) :
    countIf (fun ji : ℕ × ℕ => ji.2 + ji.1 = k ∧ (min ji.2 ji.1, max ji.2 ji.1) = (a, b))
      (mixSteps n) =
    if a ≤ b ∧ b < n ∧ a + b = k then (if a = b then 1 else 2) else 0 := by
  by_cases hcond : a ≤ b ∧ b < n ∧ a + b = k
  · obtain ⟨hab, hbn, habk⟩ := hcond
    rw [if_pos ⟨hab, hbn, habk⟩]
    by_cases hdiag : a = b
    · subst hdiag
      rw [if_pos rfl,
        countIf_congr _ (fun ji : ℕ × ℕ => ji = (a, a)) _ ?hiff]
      · exact countIf_single_pair n a a hbn hbn
      case hiff =>
        intro x _
        obtain ⟨j, i⟩ := x
        simp only [Prod.mk.injEq]
        constructor
        · intro h
          omega
        · intro h
          omega
    · rw [if_neg hdiag,
        countIf_congr _ (fun ji : ℕ × ℕ => ji = (a, b) ∨ ji = (b, a)) _ ?hiff2,
        countIf_or_single _ _ _ (by simp only [ne_eq, Prod.mk.injEq]; omega),
        countIf_single_pair n a b (by omega) hbn,
        countIf_single_pair n b a hbn (by omega)]
      case hiff2 =>
        intro x _
        obtain ⟨j, i⟩ := x
        simp only [Prod.mk.injEq]
        constructor
        · intro h
          omega
        · intro h
          omega
  · rw [if_neg hcond]
    apply countIf_eq_zero
    intro x hx hP
    obtain ⟨j, i⟩ := x
    have hmem := (mem_mixSteps n (j, i)).mp hx
    simp only [Prod.mk.injEq] at hP
    exact hcond (by omega)

lemma countIf_sum_eval (n k : ℕ) :
    countIf (fun ji : ℕ × ℕ => ji.2 + ji.1 = k) (mixSteps n) =
      ((Finset.range n ×ˢ Finset.range n).filter fun q => q.1 + q.2 = k).card := by
  rw [mixSteps, countIf_flatMap]
  have hinner : ∀ j, countIf (fun ji : ℕ × ℕ => ji.2 + ji.1 = k)
      ((List.range n).map fun i => (j, i)) =
      ∑ i in Finset.range n, if i + j = k then 1 else 0 := by
    intro j
    rw [countIf_map]
    exact countIf_range_sum _ n
  rw [List.map_congr_left fun j _ => hinner j, sum_map_range,
    Finset.card_eq_sum_ones, Finset.sum_filter, Finset.sum_product, Finset.sum_comm]

lemma foldl_insKey_range (j t m : ℕ) (hj : j ≤ m) :
    ((List.range t).map fun i => i + j).foldl insKey (List.range m) =
      List.range (max m (t + j)) := by
  induction t with
  | zero =>
    simp only [List.range_zero, List.map_nil, List.foldl_nil, Nat.zero_add]
    rw [Nat.max_eq_left hj]
  | succ t ih =>
    rw [List.range_succ, List.map_append, List.foldl_append, ih]
    simp only [List.map_cons, List.map_nil, List.foldl_cons, List.foldl_nil]
    rw [insKey]
    by_cases hmem : t + j ∈ List.range (max m (t + j))
    · have h1 := List.mem_range.mp hmem
      rw [if_pos hmem]
      congr 1
      omega
    · have h1 : ¬ t + j < max m (t + j) := fun hlt => hmem (List.mem_range.mpr hlt)
      rw [if_neg hmem, show max m (t + j) = t + j by omega, ← List.range_succ]
      congr 1
      omega

lemma posKeys_buildPos (n : ℕ) (hn : 1 ≤ n) :
    posKeys (buildPos n) = List.range (2 * n - 1) := by
  have hkeys : posKeys (buildPos n) =
      ((List.range n).flatMap fun j => (List.range n).map fun i => i + j).foldl insKey [] := by
    rw [buildPos, posKeys_foldSteps]
    have hmap : ((mixSteps n).map fun ji => ji.2 + ji.1) =
        (List.range n).flatMap fun j => (List.range n).map fun i => i + j := by
      rw [mixSteps, List.map_flatMap]
      congr 1
      funext j
      rw [List.map_map]
      rfl
    rw [hmap]
    rfl
  have hrow : ∀ r, r ≤ n → 1 ≤ r →
      (((List.range r).flatMap fun j => (List.range n).map fun i => i + j).foldl insKey []) =
        List.range (n + r - 1) := by
    intro r
    induction r with
    | zero =>
      intro _ h1
      exact absurd h1 (by omega)
    | succ r ihr =>
      intro hr _
      rw [List.range_succ, List.flatMap_append, List.foldl_append]
      by_cases hr0 : r = 0
      · subst hr0
        simp only [List.range_zero, List.flatMap_nil, List.foldl_nil,
          List.flatMap_cons, List.flatMap_nil, List.append_nil]
        have h0 := foldl_insKey_range 0 n 0 (le_refl 0)
        rw [List.range_zero] at h0
        rw [h0]
        congr 1
        omega
      · rw [ihr (by omega) (by omega)]
        simp only [List.flatMap_cons, List.flatMap_nil, List.append_nil]
        rw [foldl_insKey_range r n (n + r - 1) (by omega)]
        congr 1
        omega
  rw [hkeys, hrow n (le_refl n) hn]
  congr 1
  omega

lemma keyGroup_of_range' :
    ∀ (pos : List (ℕ × List ((ℕ × ℕ) × ℕ))) (a m k : ℕ),
      posKeys pos = List.range' a m → k < m →
      (pos.map Prod.snd).getD k [] = keyGroup pos (a + k) := by
  intro pos
  induction pos with
  | nil =>
    intro a m k hkeys hk
    cases m with
    | zero => omega
    | succ m =>
      rw [List.range'_succ] at hkeys
      exact absurd hkeys (by simp [posKeys])
  | cons e rest ih =>
    intro a m k hkeys hk
    obtain ⟨k0, g⟩ := e
    cases m with
    | zero => omega
    | succ m =>
      rw [List.range'_succ] at hkeys
      simp only [posKeys, List.map_cons, List.cons.injEq] at hkeys
      have hk0 : k0 = a := hkeys.1
      have hrest : posKeys rest = List.range' (a + 1) m := hkeys.2
      cases k with
      | zero =>
        simp only [List.map_cons, List.getD_cons_zero, keyGroup, Nat.add_zero]
        rw [if_pos hk0]
      | succ k =>
        have h2 := ih (a + 1) m k hrest (by omega)
        simp only [List.map_cons, List.getD_cons_succ, keyGroup]
        rw [h2, if_neg (by omega)]
        congr 1
        omega

lemma gbm_length (N : ℕ) (hN : 1 ≤ N) : (get_block_mixes N).length = 2 * N - 1 := by
  have h := congrArg List.length (posKeys_buildPos N hN)
  rw [posKeys, List.length_map, List.length_range] at h
  rw [get_block_mixes, List.length_map, h]

/-- C1: for `n_blocks = N ≥ 1`, `get_block_mixes N` has exactly `2N - 1`
groups; its `k`-th group maps exactly the unordered pairs `(a, b)` with
`a ≤ b < N` and `a + b = k` to multiplicity 1 on the diagonal and 2 off
the diagonal (every other pair is absent, i.e. has multiplicity 0); each
group `k`'s multiplicities sum to the number of ordered pairs `(i, j)`
with `i + j = k` and `0 ≤ i, j < N`; and the multiplicities summed over
all groups equal `N²`. -/
theorem auto2x_C1_block_mix_plan (N : ℕ) (hN : 1 ≤ N) :
    (get_block_mixes N).length = 2 * N - 1 ∧
    (∀ k, k < 2 * N - 1 → ∀ a b : ℕ,
      pairCount ((get_block_mixes N).getD k []) (a, b) =
        if a ≤ b ∧ b < N ∧ a + b = k then (if a = b then 1 else 2) else 0) ∧
    (∀ k, k < 2 * N - 1 →
      groupSum ((get_block_mixes N).getD k []) =
        ((Finset.range N ×ˢ Finset.range N).filter fun q => q.1 + q.2 = k).card) ∧
    ((get_block_mixes N).map groupSum).sum = N * N := by
  have hkeys : posKeys (buildPos N) = List.range' 0 (2 * N - 1) := by
    rw [posKeys_buildPos N hN, List.range_eq_range']
  have hgetD : ∀ k, k < 2 * N - 1 →
      (get_block_mixes N).getD k [] = keyGroup (buildPos N) k := by
    intro k hk
    have h := keyGroup_of_range' (buildPos N) 0 (2 * N - 1) k hkeys hk
    rw [get_block_mixes, h, Nat.zero_add]
  refine ⟨gbm_length N hN, ?_, ?_, ?_⟩
  · intro k hk a b
    rw [hgetD k hk, buildPos, pairCount_foldSteps]
    simp only [keyGroup, pairCount, Nat.zero_add]
    exact countIf_pairs_eval N k a b
  · intro k hk
    rw [hgetD k hk, buildPos, groupSum_foldSteps]
    simp only [keyGroup, groupSum, List.map_nil, List.sum_nil, Nat.zero_add]
    exact countIf_sum_eval N k
  · have hmap : ((get_block_mixes N).map groupSum).sum = posTotal (buildPos N) := by
      rw [get_block_mixes, List.map_map]
      rfl
    rw [hmap, buildPos, posTotal_foldSteps, length_mixSteps]
    simp [posTotal]

/-- Witness for C1 at `N = 2`: three groups. -/
theorem auto2x_C1_block_mix_plan_witness :
    1 ≤ 2 ∧ (get_block_mixes 2).length = 2 * 2 - 1 :=
  ⟨by norm_num, (auto2x_C1_block_mix_plan 2 (by norm_num)).1⟩

lemma oaRun_length (ibs : ℕ) : ∀ (blocks buf : List (List ℚ)),
    (oaRun ibs buf blocks).length = blocks.length := by
  intro blocks
  induction blocks with
  | nil => intro buf; rfl
  | cons cur rest ih =>
    intro buf
    simp only [oaRun, List.length_cons, ih]

lemma foldl_addVec_length (ibs : ℕ) : ∀ (l : List (List ℚ)) (acc : List ℚ),
    (∀ o ∈ l, ibs ≤ o.length) → acc.length ≤ ibs →
    (l.foldl (fun acc o => addVec acc (o.take ibs)) acc).length = acc.length := by
  intro l
  induction l with
  | nil => intro acc _ _; rfl
  | cons o l ih =>
    intro acc hl hacc
    rw [List.foldl_cons]
    have hol := hl o (List.mem_cons_self o l)
    have hlen : (addVec acc (o.take ibs)).length = acc.length := by
      rw [addVec, List.length_zipWith, List.length_take]
      omega
    rw [ih _ (fun o2 ho2 => hl o2 (List.mem_cons_of_mem o ho2)) (by omega), hlen]

lemma oaRun_hop_length (ibs : ℕ) : ∀ (blocks buf : List (List ℚ)),
    (∀ b ∈ blocks, ibs ≤ b.length) →
    ∀ hop ∈ oaRun ibs buf blocks, hop.length = ibs := by
  intro blocks
  induction blocks with
  | nil =>
    intro buf _ hop hh
    simp [oaRun] at hh
  | cons cur rest ih =>
    intro buf hb hop hh
    simp only [oaRun, List.mem_cons] at hh
    rcases hh with rfl | hh
    · have hcur := hb cur (List.mem_cons_self cur rest)
      unfold oaStep
      rw [foldl_addVec_length ibs _ _
        (fun o ho => of_decide_eq_true (List.mem_filter.mp ho).2)
        (by rw [List.length_take]; omega)]
      rw [List.length_take]
      omega
    · exact ih _ (fun b hbm => hb b (List.mem_cons_of_mem cur hbm)) hop hh

lemma sum_const_list (l : List ℕ) (c : ℕ) (h : ∀ x ∈ l, x = c) :
    l.sum = l.length * c := by
  induction l with
  | nil => simp
  | cons x xs ih =>
    rw [List.sum_cons, List.length_cons, h x (List.mem_cons_self x xs),
      ih fun z hz => h z (List.mem_cons_of_mem x hz)]
    ring

/-- C9: one output hop is written per mix group, each hop is exactly
`input_block_size` samples long, so the assembler writes exactly
`(2 * n_blocks - 1) * input_block_size` frames per channel. -/
theorem auto2x_C9_output_length (N ibs : ℕ) (blocks : List (List ℚ)) (hN : 1 ≤ N)
    (hlen : blocks.length = (get_block_mixes N).length)
    (hb : ∀ b ∈ blocks, ibs ≤ b.length) :
    (overlapAdd ibs blocks).length = 2 * N - 1 ∧
    (∀ hop ∈ overlapAdd ibs blocks, hop.length = ibs) ∧
    ((overlapAdd ibs blocks).map List.length).sum = (2 * N - 1) * ibs := by
  have h1 : (overlapAdd ibs blocks).length = 2 * N - 1 := by
    rw [overlapAdd, oaRun_length, hlen, gbm_length N hN]
  have h2 : ∀ hop ∈ overlapAdd ibs blocks, hop.length = ibs :=
    oaRun_hop_length ibs blocks [] hb
  refine ⟨h1, h2, ?_⟩
  rw [sum_const_list _ ibs ?hc, List.length_map, h1]
  case hc =>
    intro x hx
    rcases List.mem_map.mp hx with ⟨hop, hhop, rfl⟩
    exact h2 hop hhop

/-- Witness for C9 at a concrete input: `N = 2`, three blocks of two
samples, hop size 1. -/
theorem auto2x_C9_output_length_witness :
    1 ≤ 2 ∧
    ([[(5 : ℚ), 0], [(6 : ℚ), 0], [(7 : ℚ), 0]] : List (List ℚ)).length =
      (get_block_mixes 2).length ∧
    (∀ b ∈ ([[(5 : ℚ), 0], [(6 : ℚ), 0], [(7 : ℚ), 0]] : List (List ℚ)), 1 ≤ b.length) ∧
    (overlapAdd 1 [[(5 : ℚ), 0], [(6 : ℚ), 0], [(7 : ℚ), 0]]).length = 2 * 2 - 1 :=
  ⟨by norm_num, by decide, by decide,
   (auto2x_C9_output_length 2 1 [[(5 : ℚ), 0], [(6 : ℚ), 0], [(7 : ℚ), 0]]
     (by norm_num) (by decide) (by decide)).1⟩

lemma le_foldl_max (l : List ℚ) (a : ℚ) : a ≤ l.foldl max a := by
  induction l generalizing a with
  | nil => exact le_refl a
  | cons x l ih => exact le_trans (le_max_left a x) (ih (max a x))

lemma mem_le_foldl_max (l : List ℚ) (a x : ℚ) (hx : x ∈ l) : x ≤ l.foldl max a := by
  induction l generalizing a with
  | nil => exact absurd hx (List.not_mem_nil x)
  | cons y l ih =>
    rcases List.mem_cons.mp hx with rfl | hm
    · exact le_trans (le_max_right a x) (le_foldl_max l (max a x))
    · exact ih (max a y) hm

lemma foldl_min_le (l : List ℚ) (a : ℚ) : l.foldl min a ≤ a := by
  induction l generalizing a with
  | nil => exact le_refl a
  | cons x l ih => exact le_trans (ih (min a x)) (min_le_left a x)

lemma foldl_min_le_mem (l : List ℚ) (a x : ℚ) (hx : x ∈ l) : l.foldl min a ≤ x := by
  induction l generalizing a with
  | nil => exact absurd hx (List.not_mem_nil x)
  | cons y l ih =>
    rcases List.mem_cons.mp hx with rfl | hm
    · exact le_trans (foldl_min_le l (min a x)) (min_le_right a x)
    · exact ih (min a y) hm

lemma abs_le_blockPeak (b : List ℚ) (x : ℚ) (hx : x ∈ b) : |x| ≤ blockPeak b := by
  cases b with
  | nil => exact absurd hx (List.not_mem_nil x)
  | cons y ys =>
    have hmax : x ≤ npAmax (y :: ys) := by
      rcases List.mem_cons.mp hx with rfl | hm
      · exact le_foldl_max ys x
      · exact mem_le_foldl_max ys y x hm
    have hmin : npAmin (y :: ys) ≤ x := by
      rcases List.mem_cons.mp hx with rfl | hm
      · exact foldl_min_le ys x
      · exact foldl_min_le_mem ys y x hm
    rw [abs_le]
    constructor
    · have h1 : -blockPeak (y :: ys) ≤ -(-npAmin (y :: ys)) := by
        have := le_max_right (npAmax (y :: ys)) (-npAmin (y :: ys))
        rw [blockPeak]
        linarith
      rw [neg_neg] at h1
      linarith
    · exact le_trans hmax (le_max_left _ _)

lemma le_foldl_peak (l : List (List ℚ)) (init : ℚ) :
    init ≤ l.foldl (fun m b => max (blockPeak b) m) init := by
  induction l generalizing init with
  | nil => exact le_refl init
  | cons c cs ih =>
    exact le_trans (le_max_right (blockPeak c) init) (ih (max (blockPeak c) init))

lemma blockPeak_le_foldl (l : List (List ℚ)) (init : ℚ) (b : List ℚ) (hb : b ∈ l) :
    blockPeak b ≤ l.foldl (fun m b => max (blockPeak b) m) init := by
  induction l generalizing init with
  | nil => exact absurd hb (List.not_mem_nil b)
  | cons c cs ih =>
    rcases List.mem_cons.mp hb with rfl | hm
    · exact le_trans (le_max_left (blockPeak b) init)
        (le_foldl_peak cs (max (blockPeak b) init))
    · exact ih (max (blockPeak c) init) hm

lemma globalPeak_ge (blocks : List (List ℚ)) : 1 / 1000000 ≤ globalPeak blocks :=
  le_foldl_peak blocks (1 / 1000000)

lemma globalPeak_pos (blocks : List (List ℚ)) : 0 < globalPeak blocks :=
  lt_of_lt_of_le (by norm_num) (globalPeak_ge blocks)

lemma abs_le_globalPeak (blocks : List (List ℚ)) (b : List ℚ) (x : ℚ)
    (hb : b ∈ blocks) (hx : x ∈ b) : |x| ≤ globalPeak blocks :=
  le_trans (abs_le_blockPeak b x hx) (blockPeak_le_foldl blocks _ b hb)

lemma clip_eq_self (y : ℚ) (h1 : -1 ≤ y) (h2 : y ≤ 1) : clip y = y := by
  rw [clip, max_eq_left h1, min_eq_left h2]

lemma quantize16_bound (y : ℚ) (h : |y| ≤ 7 / 10) : |quantize16 y| ≤ 22936 := by
  have hy0 : y ≤ 7 / 10 := le_trans (le_abs_self y) h
  have hyneg : -(7 / 10) ≤ y := by
    have := neg_abs_le y
    linarith
  rw [quantize16, clip_eq_self y (by linarith) (by linarith), truncZ]
  have hfl : ⌊(229369 : ℚ) / 10⌋ = 22936 := by norm_num
  split_ifs with hq
  · rw [abs_of_nonneg (Int.floor_nonneg.mpr hq)]
    have hle : ⌊y * 32767⌋ ≤ ⌊(229369 : ℚ) / 10⌋ := Int.floor_le_floor (by linarith)
    omega
  · rw [abs_neg, abs_of_nonneg (Int.floor_nonneg.mpr (by push_neg at hq; linarith))]
    have hle : ⌊-(y * 32767)⌋ ≤ ⌊(229369 : ℚ) / 10⌋ := Int.floor_le_floor (by linarith)
    omega

lemma quantize16_at_peak (y : ℚ) (h : |y| = 7 / 10) : |quantize16 y| = 22936 := by
  rcases (abs_eq (by norm_num : (0 : ℚ) ≤ 7 / 10)).mp h with rfl | rfl
  · norm_num [quantize16, clip, truncZ, max_def, min_def]
  · norm_num [quantize16, clip, truncZ, max_def, min_def]

lemma foldl_maxabs_le : ∀ (l : List ℤ) (init c : ℤ), init ≤ c → (∀ x ∈ l, |x| ≤ c) →
    l.foldl (fun m x => max m |x|) init ≤ c := by
  intro l
  induction l with
  | nil => intro init c h _; exact h
  | cons x xs ih =>
    intro init c hinit hall
    exact ih _ c
      (max_le hinit (hall x (List.mem_cons_self x xs)))
      (fun z hz => hall z (List.mem_cons_of_mem x hz))

lemma le_foldl_maxabs_init : ∀ (l : List ℤ) (init : ℤ),
    init ≤ l.foldl (fun m x => max m |x|) init := by
  intro l
  induction l with
  | nil => intro init; exact le_refl init
  | cons x xs ih =>
    intro init
    exact le_trans (le_max_left init |x|) (ih (max init |x|))

lemma le_foldl_maxabs_mem : ∀ (l : List ℤ) (init x : ℤ), x ∈ l →
    |x| ≤ l.foldl (fun m x => max m |x|) init := by
  intro l
  induction l with
  | nil => intro init x hx; exact absurd hx (List.not_mem_nil x)
  | cons y ys ih =>
    intro init x hx
    rcases List.mem_cons.mp hx with rfl | hm
    · exact le_trans (le_max_right init |x|) (le_foldl_maxabs_init ys (max init |x|))
    · exact ih (max init |y|) x hm

lemma maxAbsOut_le (out : List ℤ) (c : ℤ) (hc : 0 ≤ c) (h : ∀ x ∈ out, |x| ≤ c) :
    maxAbsOut out ≤ c :=
  foldl_maxabs_le out 0 c hc h

lemma le_maxAbsOut (out : List ℤ) (x : ℤ) (hx : x ∈ out) : |x| ≤ maxAbsOut out :=
  le_foldl_maxabs_mem out 0 x hx

/-- Counterexample to C4 as stated: the maximum mixed-block magnitude (1)
occurs in the last block and exceeds every other block's peak, yet the
maximum absolute quantized output sample is 32767, not within ±1 of
`round(0.7 * 32767) = 22937`: the overlap-add tail of the earlier block is
added to the final block's head and pushes the sample past the target, so
the property does not hold "regardless of the magnitudes of the other
blocks". -/
theorem auto2x_C4_counterexample :
    blockPeak [(1 : ℚ), 0] = globalPeak [[(1 : ℚ) / 2, 9 / 10], [(1 : ℚ), 0]] ∧
    blockPeak [(1 : ℚ) / 2, 9 / 10] < blockPeak [(1 : ℚ), 0] ∧
    maxAbsOut (finalOutput 1 [[(1 : ℚ) / 2, 9 / 10], [(1 : ℚ), 0]]) = 32767 ∧
    ¬ |maxAbsOut (finalOutput 1 [[(1 : ℚ) / 2, 9 / 10], [(1 : ℚ), 0]]) -
        round ((7 : ℚ) / 10 * 32767)| ≤ 1 := by
  have h3 : maxAbsOut (finalOutput 1 [[(1 : ℚ) / 2, 9 / 10], [(1 : ℚ), 0]]) = 32767 := by
    norm_num [finalOutput, overlapAdd, oaRun, oaStep, scaleBlocks, globalPeak, blockPeak,
      npAmax, npAmin, addVec, quantize16, clip, truncZ, maxAbsOut, max_def, min_def]
  refine ⟨?_, ?_, h3, ?_⟩
  · norm_num [blockPeak, globalPeak, npAmax, npAmin, max_def, min_def]
  · norm_num [blockPeak, npAmax, npAmin, max_def, min_def]
  · rw [h3, show round ((7 : ℚ) / 10 * 32767) = 22937 from by norm_num [round_eq]]
    decide

/-- C4 amended: when additionally every mixed block is zero beyond its
first `input_block_size` samples (the counterexample shows the claim fails
otherwise: overlap-add tails from other blocks can push samples past the
bound) and the tracked global peak is attained by some sample, the final
output's maximum absolute quantized sample equals 22936, within ±1 of
`round(0.7 * 32767) = 22937` (int16 truncation loses one unit). -/
theorem auto2x_C4_peak_normalization (ibs : ℕ) (blocks : List (List ℚ))
    (htails : ∀ b ∈ blocks, ∀ x ∈ b.drop ibs, x = 0)
    (hpeak : ∃ b ∈ blocks, ∃ x ∈ b, |x| = globalPeak blocks) :
    maxAbsOut (finalOutput ibs blocks) = 22936 ∧
    |maxAbsOut (finalOutput ibs blocks) - round ((7 : ℚ) / 10 * 32767)| ≤ 1 := by
  obtain ⟨b0, hb0, x0, hx0, hx0P⟩ := hpeak
  have hP := globalPeak_pos blocks
  have hspos : (0 : ℚ) < 7 / 10 / globalPeak blocks := div_pos (by norm_num) hP
  have hscaled : ∀ sb ∈ scaleBlocks blocks, ∀ x ∈ sb.drop ibs, x = 0 := by
    intro sb hsb x hx
    rw [scaleBlocks] at hsb
    rcases List.mem_map.mp hsb with ⟨b, hbm, rfl⟩
    rw [← List.map_drop] at hx
    rcases List.mem_map.mp hx with ⟨z, hz, rfl⟩
    rw [htails b hbm z hz, zero_mul]
  have hassemble : overlapAdd ibs (scaleBlocks blocks) =
      (scaleBlocks blocks).map fun b => b.take ibs :=
    oaRun_no_tails ibs (scaleBlocks blocks) [] (by simp) hscaled
  have hmain : maxAbsOut (finalOutput ibs blocks) = 22936 := by
    rw [finalOutput, hassemble]
    apply le_antisymm
    · apply maxAbsOut_le _ _ (by norm_num)
      intro z hz
      rcases List.mem_flatten.mp hz with ⟨hopq, hh1, hzin⟩
      rcases List.mem_map.mp hh1 with ⟨hop, hh2, rfl⟩
      rcases List.mem_map.mp hh2 with ⟨sb, hsb, rfl⟩
      rw [scaleBlocks] at hsb
      rcases List.mem_map.mp hsb with ⟨b, hbm, rfl⟩
      rcases List.mem_map.mp hzin with ⟨y, hy, rfl⟩
      have hy2 := List.mem_of_mem_take hy
      rcases List.mem_map.mp hy2 with ⟨x, hxb, rfl⟩
      apply quantize16_bound
      rw [abs_mul, abs_of_nonneg (le_of_lt hspos)]
      have hxP := abs_le_globalPeak blocks b x hbm hxb
      calc |x| * (7 / 10 / globalPeak blocks)
          ≤ globalPeak blocks * (7 / 10 / globalPeak blocks) :=
            mul_le_mul_of_nonneg_right hxP (le_of_lt hspos)
        _ = 7 / 10 := by rw [mul_comm, div_mul_cancel₀ _ (ne_of_gt hP)]
    · have hx0ne : x0 ≠ 0 := by
        intro h0
        rw [h0, abs_zero] at hx0P
        have hge := globalPeak_ge blocks
        rw [← hx0P] at hge
        linarith
      have hx0take : x0 ∈ b0.take ibs := by
        have hsplit : x0 ∈ b0.take ibs ++ b0.drop ibs := by
          rw [List.take_append_drop]
          exact hx0
        rcases List.mem_append.mp hsplit with h | h
        · exact h
        · exact absurd (htails b0 hb0 x0 h) hx0ne
      have habs : |x0 * (7 / 10 / globalPeak blocks)| = 7 / 10 := by
        rw [abs_mul, hx0P, abs_of_nonneg (le_of_lt hspos), mul_comm,
          div_mul_cancel₀ _ (ne_of_gt hP)]
      have hq := quantize16_at_peak _ habs
      have hmem : quantize16 (x0 * (7 / 10 / globalPeak blocks)) ∈
          (((scaleBlocks blocks).map fun b => b.take ibs).map
            fun hop => hop.map quantize16).flatten := by
        apply List.mem_flatten.mpr
        refine ⟨((b0.take ibs).map fun x => x * (7 / 10 / globalPeak blocks)).map quantize16,
          ?_, ?_⟩
        · apply List.mem_map.mpr
          refine ⟨(b0.take ibs).map fun x => x * (7 / 10 / globalPeak blocks), ?_, rfl⟩
          apply List.mem_map.mpr
          refine ⟨b0.map fun x => x * (7 / 10 / globalPeak blocks), ?_, ?_⟩
          · rw [scaleBlocks]
            exact List.mem_map.mpr ⟨b0, hb0, rfl⟩
          · rw [List.map_take]
        · exact List.mem_map.mpr ⟨_, List.mem_map.mpr ⟨x0, hx0take, rfl⟩, rfl⟩
      have hle := le_maxAbsOut _ _ hmem
      rw [hq] at hle
      exact hle
  refine ⟨hmain, ?_⟩
  rw [hmain, show round ((7 : ℚ) / 10 * 32767) = 22937 from by norm_num [round_eq]]
  decide

/-- Witness for the amended C4 at a concrete input: two no-tail blocks with
the peak 1 in the last block. -/
theorem auto2x_C4_peak_normalization_witness :
    (∀ b ∈ [[(1 : ℚ) / 2, 0], [(1 : ℚ), 0]], ∀ x ∈ b.drop 1, x = 0) ∧
    (∃ b ∈ [[(1 : ℚ) / 2, 0], [(1 : ℚ), 0]], ∃ x ∈ b,
      |x| = globalPeak [[(1 : ℚ) / 2, 0], [(1 : ℚ), 0]]) ∧
    maxAbsOut (finalOutput 1 [[(1 : ℚ) / 2, 0], [(1 : ℚ), 0]]) = 22936 := by
  have h1 : ∀ b ∈ [[(1 : ℚ) / 2, 0], [(1 : ℚ), 0]], ∀ x ∈ b.drop 1, x = 0 := by decide
  have hG : globalPeak [[(1 : ℚ) / 2, 0], [(1 : ℚ), 0]] = 1 := by
    norm_num [globalPeak, blockPeak, npAmax, npAmin, max_def, min_def]
  have h2 : ∃ b ∈ [[(1 : ℚ) / 2, 0], [(1 : ℚ), 0]], ∃ x ∈ b,
      |x| = globalPeak [[(1 : ℚ) / 2, 0], [(1 : ℚ), 0]] := by
    refine ⟨[(1 : ℚ), 0], by simp, 1, by simp, ?_⟩
    rw [hG]
    norm_num
  exact ⟨h1, h2, (auto2x_C4_peak_normalization 1 _ h1 h2).1⟩
